import Mathlib

/-!
# Verification of `synchronizedSequenceShow.py`

A shallow embedding of the swarm-choreography script: the command model
(`Takeoff`, `Land`, `Goto`, `Ring`, `Helix`, `Quit`), the scheduler thread
`control_thread` that walks the choreography table and enqueues commands on
per-agent queues, and the per-agent worker loop of `crazyflie_control` that
consumes a queue and executes commands against the high-level commander.

Python numbers in command payloads are modelled as rationals; the positions,
yaws and durations produced by the helix expansion are modelled as real
numbers (real arithmetic stands in for IEEE floating point, so trigonometric
and exactness facts below are facts of the real-valued expansion).  Python
exceptions (IndexError from list indexing, ZeroDivisionError from division)
are modelled explicitly: every operation that can raise returns an `Option`
or an explicit error outcome.
-/

/-- The command variants of the script (lines 49-57).  Payload numbers are
rationals; `No_setpoints` is an integer as in the source.  `other` stands for
any foreign object placed on a queue, i.e. a command whose type is none of
the known variants: Python queues are untyped, and the worker's dispatch is
an `if type(command) is ...` chain with a catch-all `else`. -/
inductive Command where
  | takeoff (height tm : ℚ)
  | land (tm : ℚ)
  | goto (x y z tm : ℚ)
  | ring (r g b intensity tm : ℚ)
  | helix (d z zf theta0 circle_period : ℚ) (No_setpoints : ℤ) (tm : ℚ)
  | quit
  | other (tag : ℕ)
deriving DecidableEq

/-- One observable action of a worker against the external interface:
the high-level commander primitives (`takeoff`, `land`, `go_to`), the
parameter-set side channel (`cf.param.set_value`), a `time.sleep`, and the
warning printed for an unknown command. -/
inductive Effect where
  | takeoff (height tm : ℝ)
  | land (height tm : ℝ)
  | go_to (x y z yaw tm : ℝ)
  | setParam (name : String) (value : ℚ)
  | sleep (tm : ℝ)
  | warn (c : Command) (uri : String)

/-- `True` exactly on the motion way-point effect `go_to`. -/
def isGoTo : Effect → Bool
  | .go_to _ _ _ _ _ => true
  | _ => false

/-- `True` exactly on parameter-set effects. -/
def isParamSet : Effect → Bool
  | .setParam _ _ => true
  | _ => false

/-- Python `int()` on a rational: truncation toward zero. -/
def pyInt (q : ℚ) : ℤ :=
  if 0 ≤ q then ⌊q⌋ else -⌊-q⌋

/-- The packed 24-bit ring color of `set_ring_color` (lines 184-188):
scale each channel by the intensity, truncate with `int()`, and combine as
`(int(r) << 16) | (int(g) << 8) | int(b)`. -/
def ring_color (r g b intensity : ℚ) : ℤ :=
  Int.lor
    (Int.lor (pyInt (r * intensity) <<< (16 : ℤ)) (pyInt (g * intensity) <<< (8 : ℤ)))
    (pyInt (b * intensity))

/-- `set_ring_color` (lines 181-190): sets `ring.fadeTime` to the fade time,
then computes the packed color and sets `ring.fadeColor`.  Both writes go
through the parameter-set channel; no motion command is issued. -/
def set_ring_color (r g b intensity tm : ℚ) : List Effect :=
  [Effect.setParam "ring.fadeTime" tm,
   Effect.setParam "ring.fadeColor" ((ring_color r g b intensity : ℤ) : ℚ)]

/-- The way-point issued by iteration `counter` of the helix loop
(lines 226-230): position
`(d/2·cos(2π·counter/n + θ0), d/2·sin(2π·counter/n + θ0),
  z + counter/n·(zf − z))`, yaw `θ0 + 2π·counter/n − π/2`, and duration
`setpoint_period = circle_period/n`. -/
noncomputable def helix_wp (d z zf theta0 circle_period : ℚ) (n : ℤ) (counter : ℕ) :
    ℝ × ℝ × ℝ × ℝ × ℝ :=
  ((d : ℝ) / 2 * Real.cos (2 * Real.pi * counter / (n : ℝ) + (theta0 : ℝ)),
   (d : ℝ) / 2 * Real.sin (2 * Real.pi * counter / (n : ℝ) + (theta0 : ℝ)),
   (z : ℝ) + (counter : ℝ) / (n : ℝ) * ((zf : ℝ) - (z : ℝ)),
   (theta0 : ℝ) + 2 * Real.pi * counter / (n : ℝ) - Real.pi / 2,
   (circle_period : ℝ) / (n : ℝ))

/-- The sequence of absolute way-points `(x, y, z, yaw, duration)` issued by
the helix expansion (lines 217-231): the entry way-point at angle `θ0` and
height `z` with the command's own duration, then one way-point per loop
iteration `counter = 1, …, No_setpoints`. -/
noncomputable def helix_waypoints (d z zf theta0 circle_period : ℚ) (n : ℤ) (tm : ℚ) :
    List (ℝ × ℝ × ℝ × ℝ × ℝ) :=
  ((d : ℝ) / 2 * Real.cos (theta0 : ℝ),
   (d : ℝ) / 2 * Real.sin (theta0 : ℝ),
   (z : ℝ),
   (theta0 : ℝ) - Real.pi / 2,
   (tm : ℝ)) ::
  (List.range n.toNat).map (fun k => helix_wp d z zf theta0 circle_period n (k + 1))

/-- The effect stream of the helix branch for `No_setpoints ≠ 0`
(lines 218-231): the entry `go_to`, the `time.sleep(time+1)` arrival buffer,
then for each loop iteration a `go_to` way-point followed by a
`time.sleep(setpoint_period)`. -/
noncomputable def helix_effects (d z zf theta0 circle_period : ℚ) (n : ℤ) (tm : ℚ) :
    List Effect :=
  Effect.go_to ((d : ℝ) / 2 * Real.cos (theta0 : ℝ))
      ((d : ℝ) / 2 * Real.sin (theta0 : ℝ)) (z : ℝ)
      ((theta0 : ℝ) - Real.pi / 2) (tm : ℝ) ::
  Effect.sleep ((tm : ℝ) + 1) ::
  (List.range n.toNat).flatMap (fun k =>
    [Effect.go_to (helix_wp d z zf theta0 circle_period n (k + 1)).1
       (helix_wp d z zf theta0 circle_period n (k + 1)).2.1
       (helix_wp d z zf theta0 circle_period n (k + 1)).2.2.1
       (helix_wp d z zf theta0 circle_period n (k + 1)).2.2.2.1
       (helix_wp d z zf theta0 circle_period n (k + 1)).2.2.2.2,
     Effect.sleep ((circle_period : ℝ) / (n : ℝ))])

/-- A Python error that terminates a thread. -/
inductive PyErr where
  | zeroDiv
  | idx
deriving DecidableEq

/-- Result of executing one command in the worker loop: effects followed by
another loop iteration, a `return` (only for `Quit`), or an uncaught
exception. -/
inductive ExecResult where
  | done (es : List Effect)
  | stop
  | crash (e : PyErr)

/-- One iteration of the `while True` dispatch in `crazyflie_control`
(lines 207-238).  `Quit` returns; `Takeoff`, `Land`, `Goto` call the
matching commander primitive (`land` targets height `0.0`, `go_to` passes
yaw `0`); `Helix` computes `setpoint_period = circle_period/No_setpoints`
first — a `ZeroDivisionError` when `No_setpoints = 0`, before any way-point
is issued — and otherwise issues the expansion; `Ring` calls
`set_ring_color`; any other object falls to the `else` branch, which prints
a warning naming the command and the uri. -/
noncomputable def execCommand (uri : String) : Command → ExecResult
  | .quit => .stop
  | .takeoff height tm => .done [Effect.takeoff (height : ℝ) (tm : ℝ)]
  | .land tm => .done [Effect.land 0 (tm : ℝ)]
  | .goto x y z tm => .done [Effect.go_to (x : ℝ) (y : ℝ) (z : ℝ) 0 (tm : ℝ)]
  | .helix d z zf theta0 circle_period n tm =>
      if n = 0 then .crash .zeroDiv
      else .done (helix_effects d z zf theta0 circle_period n tm)
  | .ring r g b intensity tm => .done (set_ring_color r g b intensity tm)
  | .other tag => .done [Effect.warn (.other tag) uri]

/-- How a worker run ends: still blocked on `control.get()` (the modelled
input stream is exhausted), returned via `Quit`, or killed by an uncaught
exception. -/
inductive WStatus where
  | blocked
  | stopped
  | crashed (e : PyErr)
deriving DecidableEq

/-- The command-consumption loop of `crazyflie_control` (lines 207-238),
run on the stream of commands the worker will find on its queue: the emitted
effects, and how the run ends. -/
noncomputable def crazyflie_control_loop (uri : String) :
    List Command → List Effect × WStatus
  | [] => ([], .blocked)
  | c :: rest =>
    match execCommand uri c with
    | .stop => ([], .stopped)
    | .crash e => ([], .crashed e)
    | .done es =>
        let r := crazyflie_control_loop uri rest
        (es ++ r.1, r.2)

/-- A choreography table entry, one `(step, cf_id, action)` triple of the
`sequence` list (lines 85-167).  `cf_id` is an integer: Python imposes no
range on it, and negative values index `controlQueues` from its end. -/
structure Entry where
  step : ℕ
  cf_id : ℤ
  cmd : Command
deriving DecidableEq

/-- One successful enqueue performed by the scheduler: the value of the
scheduler's `step` counter at the moment of `controlQueues[cf_id].put`,
and the table entry dispatched. -/
structure Disp where
  dstep : ℕ
  entry : Entry
deriving DecidableEq

/-- Scheduler-visible state: the per-agent queue contents (a queue is the
list of commands enqueued so far, oldest first) and the dispatch trace. -/
structure SchedState where
  queues : List (List Command)
  trace : List Disp
deriving DecidableEq

/-- How `control_thread` ends: normal completion (table exhausted, `Quit`
distributed), death by IndexError, or out of modelling fuel (the model's
bound on outer loop iterations ran out — not a behaviour of the script). -/
inductive Outcome where
  | ok
  | idxErr
  | fuelOut
deriving DecidableEq

/-- Append `c` to the queue at position `n`. -/
def appendAt (qs : List (List Command)) (n : ℕ) (c : Command) :
    List (List Command) :=
  qs.set n (qs.getD n [] ++ [c])

/-- `controlQueues[cf_id].put(command)` with Python list-indexing semantics
(line 253): an index `0 ≤ i < len` is used directly, `-len ≤ i < 0` indexes
from the end, and anything else raises IndexError (`none`). -/
def pyPut (qs : List (List Command)) (i : ℤ) (c : Command) :
    Option (List (List Command)) :=
  if 0 ≤ i ∧ i < (qs.length : ℤ) then some (appendAt qs i.toNat c)
  else if -(qs.length : ℤ) ≤ i ∧ i < 0 then
    some (appendAt qs ((qs.length : ℤ) + i).toNat c)
  else none

/-- Whether `controlQueues[i]` succeeds for a table of `nq` queues. -/
def okId (nq : ℕ) (e : Entry) : Prop :=
  -(nq : ℤ) ≤ e.cf_id ∧ e.cf_id < (nq : ℤ)

instance (nq : ℕ) (e : Entry) : Decidable (okId nq e) := by
  unfold okId; infer_instance

/-- Enqueue a list of entries in order, with `pyPut`; when an enqueue would
raise, the queue vector is left unchanged (only used under `okId`
hypotheses, where every `pyPut` succeeds). -/
def pyEnqAll (qs : List (List Command)) (es : List Entry) :
    List (List Command) :=
  es.foldl (fun qs e => (pyPut qs e.cf_id e.cmd).getD qs) qs

/-- The inner `while sequence[pointer][0] <= step` loop of `control_thread`
(lines 248-259), on the remaining suffix of the table.  Evaluating the loop
condition on an exhausted table is `sequence[pointer]` with
`pointer = len(sequence)` — an IndexError, returned as `none` (reachable
only on the empty table).  A due entry is enqueued with
`controlQueues[cf_id].put` (which may itself raise, `none`); after the
enqueue, `pointer >= len(sequence)` sets `stop` and breaks.  Otherwise the
loop exits normally, returning `stop = false` and the remaining entries. -/
def innerLoop (s : ℕ) : List Entry → SchedState → SchedState × Option (Bool × List Entry)
  | [], st => (st, none)
  | e :: rest, st =>
    if e.step ≤ s then
      match pyPut st.queues e.cf_id e.cmd with
      | none => (st, none)
      | some qs =>
        if rest.isEmpty then (⟨qs, st.trace ++ [⟨s, e⟩]⟩, some (true, []))
        else innerLoop s rest ⟨qs, st.trace ++ [⟨s, e⟩]⟩
    else (st, some (false, e :: rest))

/-- The outer `while not stop` loop of `control_thread` (lines 246-262):
run the inner dispatch loop at the current step, then advance the step
counter and tick again.  `fuel` bounds the number of outer iterations the
model will unfold (the script's loop needs `max step + 1` of them). -/
def outerLoop (s fuel : ℕ) (entries : List Entry) (st : SchedState) :
    SchedState × Outcome :=
  match fuel with
  | 0 => (st, .fuelOut)
  | fuel + 1 =>
    match innerLoop s entries st with
    | (st', none) => (st', .idxErr)
    | (st', some (true, _)) => (st', .ok)
    | (st', some (false, rest)) => outerLoop (s + 1) fuel rest st'

/-- `control_thread` (lines 241-265) for a table `tbl` and `nq` agents:
start with empty queues at `pointer = 0`, `step = 0`, run the scheduler
loops, and on normal completion put one `Quit()` on every agent's queue
(lines 264-265).  An uncaught IndexError kills the thread before the `Quit`
distribution. -/
def control_thread (tbl : List Entry) (nq fuel : ℕ) : SchedState × Outcome :=
  match outerLoop 0 fuel tbl ⟨List.replicate nq [], []⟩ with
  | (st, .ok) => (⟨st.queues.map (fun q => q ++ [Command.quit]), st.trace⟩, .ok)
  | r => r

/-! ### Basic properties of the queue operations -/

theorem appendAt_length (qs : List (List Command)) (n : ℕ) (c : Command) :
    (appendAt qs n c).length = qs.length := by
  simp [appendAt]

theorem pyPut_length {qs qs' : List (List Command)} {i : ℤ} {c : Command}
    (h : pyPut qs i c = some qs') : qs'.length = qs.length := by
  unfold pyPut at h
  split at h
  · injection h with h; subst h; simp [appendAt]
  · split at h
    · injection h with h; subst h; simp [appendAt]
    · exact Option.noConfusion h

theorem pyPut_isSome {qs : List (List Command)} {i : ℤ} {c : Command} :
    (pyPut qs i c).isSome ↔ -(qs.length : ℤ) ≤ i ∧ i < (qs.length : ℤ) := by
  unfold pyPut
  split
  · next h => simp; omega
  · split
    · next h2 => simp; omega
    · next h1 h2 => simp; omega

theorem pyPut_valid {qs : List (List Command)} {i : ℤ} (h0 : 0 ≤ i)
    (hlt : i < (qs.length : ℤ)) (c : Command) :
    pyPut qs i c = some (appendAt qs i.toNat c) := by
  unfold pyPut
  rw [if_pos ⟨h0, hlt⟩]

theorem pyPutD_length (qs : List (List Command)) (i : ℤ) (c : Command) :
    ((pyPut qs i c).getD qs).length = qs.length := by
  cases h : pyPut qs i c with
  | none => rfl
  | some qs' => simpa using pyPut_length h

theorem pyEnqAll_length (es : List Entry) :
    ∀ qs : List (List Command), (pyEnqAll qs es).length = qs.length := by
  induction es with
  | nil => intro qs; rfl
  | cons e es ih =>
    intro qs
    show (pyEnqAll ((pyPut qs e.cf_id e.cmd).getD qs) es).length = qs.length
    rw [ih, pyPutD_length]

theorem pyEnqAll_append (qs : List (List Command)) (l₁ l₂ : List Entry) :
    pyEnqAll qs (l₁ ++ l₂) = pyEnqAll (pyEnqAll qs l₁) l₂ :=
  List.foldl_append _ _ l₁ l₂

theorem appendAt_getElem?_self {qs : List (List Command)} {n : ℕ}
    (h : n < qs.length) (c : Command) :
    (appendAt qs n c)[n]? = some (qs.getD n [] ++ [c]) := by
  unfold appendAt
  rw [List.getElem?_set_self']
  simp [List.getElem?_eq_getElem h]

theorem appendAt_getElem?_ne {qs : List (List Command)} {n a : ℕ}
    (h : n ≠ a) (c : Command) :
    (appendAt qs n c)[a]? = qs[a]? :=
  List.getElem?_set_ne h

theorem pyEnqAll_getElem? (es : List Entry) :
    ∀ (qs : List (List Command)) (a : ℕ),
    (∀ e ∈ es, 0 ≤ e.cf_id ∧ e.cf_id < (qs.length : ℤ)) → a < qs.length →
    (pyEnqAll qs es)[a]?
      = some (qs.getD a [] ++
          (es.filter (fun e => e.cf_id = (a : ℤ))).map (fun e => e.cmd)) := by
  induction es with
  | nil =>
    intro qs a _ ha
    simp [pyEnqAll, List.getD, List.getElem?_eq_getElem ha]
  | cons e es ih =>
    intro qs a hv ha
    have he := hv e (List.mem_cons_self e es)
    have hput := pyPut_valid he.1 he.2 e.cmd
    have hstep : pyEnqAll qs (e :: es) = pyEnqAll (appendAt qs e.cf_id.toNat e.cmd) es := by
      show pyEnqAll ((pyPut qs e.cf_id e.cmd).getD qs) es = _
      rw [hput]; rfl
    have hlen : (appendAt qs e.cf_id.toNat e.cmd).length = qs.length := appendAt_length ..
    have hvalid' : ∀ e' ∈ es,
        0 ≤ e'.cf_id ∧ e'.cf_id < ((appendAt qs e.cf_id.toNat e.cmd).length : ℤ) := by
      intro e' he'
      rw [hlen]
      exact hv e' (List.mem_cons_of_mem _ he')
    have ha' : a < (appendAt qs e.cf_id.toNat e.cmd).length := by rw [hlen]; exact ha
    rw [hstep, ih _ a hvalid' ha']
    by_cases hid : e.cf_id.toNat = a
    · subst hid
      have hida : e.cf_id = (e.cf_id.toNat : ℤ) := (Int.toNat_of_nonneg he.1).symm
      have hget : (appendAt qs e.cf_id.toNat e.cmd).getD e.cf_id.toNat []
          = qs.getD e.cf_id.toNat [] ++ [e.cmd] := by
        rw [List.getD_eq_getElem?_getD, appendAt_getElem?_self ha e.cmd]
        rfl
      rw [hget, List.filter_cons_of_pos (by simpa using hida)]
      simp
    · have hida : ¬ e.cf_id = (a : ℤ) := by
        intro hcontra
        apply hid
        rw [hcontra]
        simp
      have hget : (appendAt qs e.cf_id.toNat e.cmd).getD a [] = qs.getD a [] := by
        rw [List.getD_eq_getElem?_getD, appendAt_getElem?_ne hid, ← List.getD_eq_getElem?_getD]
      rw [hget, List.filter_cons_of_neg (by simp [hida])]

/-! ### takeWhile / dropWhile splitting -/

theorem dropWhile_head_not {α : Type} {p : α → Bool} :
    ∀ (l : List α) (x : α) (xs : List α), l.dropWhile p = x :: xs → p x = false := by
  intro l
  induction l with
  | nil => intro x xs h; simp at h
  | cons a as ih =>
    intro x xs h
    rw [List.dropWhile_cons] at h
    split at h
    · exact ih _ _ h
    · next hp =>
      injection h with h1 _
      subst h1
      simpa using hp

theorem takeWhile_append_of_all {α : Type} {p : α → Bool} :
    ∀ (l₁ l₂ : List α), (∀ a ∈ l₁, p a) →
      (l₁ ++ l₂).takeWhile p = l₁ ++ l₂.takeWhile p ∧
      (l₁ ++ l₂).dropWhile p = l₂.dropWhile p := by
  intro l₁
  induction l₁ with
  | nil => intro l₂ _; simp
  | cons a as ih =>
    intro l₂ hall
    have ha : p a := hall a (List.mem_cons_self a as)
    have := ih l₂ (fun x hx => hall x (List.mem_cons_of_mem _ hx))
    constructor
    · simp only [List.cons_append, List.takeWhile_cons, ha, if_pos, this.1]
    · simp only [List.cons_append, List.dropWhile_cons, ha, if_pos, this.2]

theorem takeWhile_append_of_stop {α : Type} {p : α → Bool} :
    ∀ (l₁ l₂ : List α), l₁.dropWhile p ≠ [] →
      (l₁ ++ l₂).takeWhile p = l₁.takeWhile p ∧
      (l₁ ++ l₂).dropWhile p = l₁.dropWhile p ++ l₂ := by
  intro l₁
  induction l₁ with
  | nil => intro l₂ h; simp at h
  | cons a as ih =>
    intro l₂ hne
    by_cases ha : p a
    · have hne' : as.dropWhile p ≠ [] := by
        rw [List.dropWhile_cons, if_pos ha] at hne
        exact hne
      have := ih l₂ hne'
      constructor
      · simp only [List.cons_append, List.takeWhile_cons, ha, if_pos, this.1]
      · simp only [List.cons_append, List.dropWhile_cons, ha, if_pos, this.2]
    · constructor
      · simp only [List.cons_append, List.takeWhile_cons, ha]
        simp
      · simp only [List.cons_append, List.dropWhile_cons, ha]
        simp

/-! ### The inner dispatch loop -/

theorem innerLoop_queues_length (s : ℕ) :
    ∀ (entries : List Entry) (st : SchedState),
    (innerLoop s entries st).1.queues.length = st.queues.length := by
  intro entries
  induction entries with
  | nil => intro st; rfl
  | cons e rest ih =>
    intro st
    simp only [innerLoop]
    by_cases hs : e.step ≤ s
    · rw [if_pos hs]
      cases hput : pyPut st.queues e.cf_id e.cmd with
      | none => rfl
      | some qs =>
        have hq : qs.length = st.queues.length := pyPut_length hput
        dsimp only
        by_cases hre : rest.isEmpty = true
        · rw [if_pos hre]
          exact hq
        · rw [if_neg hre, ih]
          exact hq
    · rw [if_neg hs]

theorem innerLoop_trace (s : ℕ) :
    ∀ (entries : List Entry) (st : SchedState), ∃ k,
      (innerLoop s entries st).1.trace
        = st.trace ++ (entries.take k).map (fun e => Disp.mk s e) ∧
      ∀ b post, (innerLoop s entries st).2 = some (b, post) → post = entries.drop k := by
  intro entries
  induction entries with
  | nil =>
    intro st
    exact ⟨0, by simp [innerLoop], by intro b post h; simp [innerLoop] at h⟩
  | cons e rest ih =>
    intro st
    by_cases hs : e.step ≤ s
    · cases hput : pyPut st.queues e.cf_id e.cmd with
      | none =>
        refine ⟨0, ?_, ?_⟩
        · simp [innerLoop, hs, hput]
        · intro b post h
          simp [innerLoop, hs, hput] at h
      | some qs =>
        by_cases hre : rest.isEmpty = true
        · refine ⟨1, ?_, ?_⟩
          · simp [innerLoop, hs, hput, hre]
          · intro b post h
            simp only [innerLoop, if_pos hs, hput, if_pos hre] at h
            have hrest : rest = [] := List.isEmpty_iff.mp hre
            injection h with h1
            injection h1 with _ h3
            simp [← h3, hrest]
        · obtain ⟨k, htr, hpost⟩ := ih ⟨qs, st.trace ++ [⟨s, e⟩]⟩
          refine ⟨k + 1, ?_, ?_⟩
          · simp only [innerLoop, if_pos hs, hput, if_neg hre]
            rw [htr]
            simp
          · intro b post h
            simp only [innerLoop, if_pos hs, hput, if_neg hre] at h
            have := hpost b post h
            simp [this]
    · refine ⟨0, ?_, ?_⟩
      · simp [innerLoop, hs]
      · intro b post h
        simp only [innerLoop, if_neg hs] at h
        injection h with h1
        injection h1 with _ h3
        simp [← h3]

theorem innerLoop_ok (s : ℕ) :
    ∀ (entries : List Entry) (st : SchedState), entries ≠ [] →
    (∀ e ∈ entries.takeWhile (fun e => e.step ≤ s), okId st.queues.length e) →
    innerLoop s entries st =
      (⟨pyEnqAll st.queues (entries.takeWhile (fun e => e.step ≤ s)),
        st.trace ++ (entries.takeWhile (fun e => e.step ≤ s)).map (fun e => Disp.mk s e)⟩,
       if (entries.dropWhile (fun e => e.step ≤ s)).isEmpty then some (true, ([] : List Entry))
       else some (false, entries.dropWhile (fun e => e.step ≤ s))) := by
  intro entries
  induction entries with
  | nil => intro st h; exact absurd rfl h
  | cons e rest ih =>
    intro st _ hok
    by_cases hs : e.step ≤ s
    · have hmem : e ∈ (e :: rest).takeWhile (fun e => e.step ≤ s) := by
        rw [List.takeWhile_cons, if_pos (by simpa using hs)]
        exact List.mem_cons_self e _
      have hoke := hok e hmem
      have hput : (pyPut st.queues e.cf_id e.cmd).isSome := pyPut_isSome.mpr hoke
      obtain ⟨qs, hqs⟩ := Option.isSome_iff_exists.mp hput
      have hlen : qs.length = st.queues.length := pyPut_length hqs
      have htw : (e :: rest).takeWhile (fun e => e.step ≤ s)
          = e :: rest.takeWhile (fun e => e.step ≤ s) := by
        rw [List.takeWhile_cons, if_pos (by simpa using hs)]
      have hdw : (e :: rest).dropWhile (fun e => e.step ≤ s)
          = rest.dropWhile (fun e => e.step ≤ s) := by
        rw [List.dropWhile_cons, if_pos (by simpa using hs)]
      have henq : pyEnqAll st.queues ((e :: rest).takeWhile (fun e => e.step ≤ s))
          = pyEnqAll qs (rest.takeWhile (fun e => e.step ≤ s)) := by
        rw [htw]
        show pyEnqAll ((pyPut st.queues e.cf_id e.cmd).getD st.queues) _ = _
        rw [hqs]
        rfl
      by_cases hre : rest.isEmpty = true
      · have hrest : rest = [] := List.isEmpty_iff.mp hre
        subst hrest
        simp only [innerLoop, if_pos hs, hqs, if_pos hre]
        rw [htw, hdw]
        simp only [List.takeWhile_nil, List.dropWhile_nil, List.isEmpty_nil, if_pos]
        have : pyEnqAll st.queues [e] = qs := by
          show ((pyPut st.queues e.cf_id e.cmd).getD st.queues) = qs
          rw [hqs]
          rfl
        simp [pyEnqAll, hqs, this]
      · have hrne : rest ≠ [] := by
          intro hcontra; rw [hcontra] at hre; exact hre rfl
        have hok' : ∀ e' ∈ rest.takeWhile (fun e => e.step ≤ s),
            okId (SchedState.mk qs (st.trace ++ [⟨s, e⟩])).queues.length e' := by
          intro e' he'
          show okId qs.length e'
          rw [hlen]
          exact hok e' (by rw [htw]; exact List.mem_cons_of_mem _ he')
        have := ih ⟨qs, st.trace ++ [⟨s, e⟩]⟩ hrne hok'
        simp only [innerLoop, if_pos hs, hqs, if_neg hre]
        rw [this, henq, htw, hdw]
        simp
    · have htw : (e :: rest).takeWhile (fun e => e.step ≤ s) = [] := by
        rw [List.takeWhile_cons, if_neg (by simpa using hs)]
      have hdw : (e :: rest).dropWhile (fun e => e.step ≤ s) = e :: rest := by
        rw [List.dropWhile_cons, if_neg (by simpa using hs)]
      simp only [innerLoop, if_neg hs, htw, hdw]
      simp [pyEnqAll]

theorem innerLoop_crash (s : ℕ) :
    ∀ (good : List Entry) (bad : Entry) (rest : List Entry) (st : SchedState),
    (∀ e ∈ good, e.step ≤ s ∧ okId st.queues.length e) →
    bad.step ≤ s → ¬ okId st.queues.length bad →
    innerLoop s (good ++ bad :: rest) st =
      (⟨pyEnqAll st.queues good, st.trace ++ good.map (fun e => Disp.mk s e)⟩, none) := by
  intro good
  induction good with
  | nil =>
    intro bad rest st _ hbs hbad
    have hput : pyPut st.queues bad.cf_id bad.cmd = none := by
      cases hp : pyPut st.queues bad.cf_id bad.cmd with
      | none => rfl
      | some qs =>
        exact absurd (pyPut_isSome.mp (by rw [hp]; rfl)) hbad
    simp [innerLoop, hbs, hput, pyEnqAll]
  | cons g good' ih =>
    intro bad rest st hgood hbs hbad
    have hg := hgood g (List.mem_cons_self g good')
    have hput : (pyPut st.queues g.cf_id g.cmd).isSome := pyPut_isSome.mpr hg.2
    obtain ⟨qs, hqs⟩ := Option.isSome_iff_exists.mp hput
    have hlen : qs.length = st.queues.length := pyPut_length hqs
    have hne : (good' ++ bad :: rest).isEmpty = false := by
      cases good' <;> rfl
    have hgood' : ∀ e ∈ good',
        e.step ≤ s ∧ okId (SchedState.mk qs (st.trace ++ [⟨s, g⟩])).queues.length e := by
      intro e he
      have := hgood e (List.mem_cons_of_mem _ he)
      exact ⟨this.1, by show okId qs.length e; rw [hlen]; exact this.2⟩
    have hbad' : ¬ okId (SchedState.mk qs (st.trace ++ [⟨s, g⟩])).queues.length bad := by
      show ¬ okId qs.length bad
      rw [hlen]
      exact hbad
    have := ih bad rest ⟨qs, st.trace ++ [⟨s, g⟩]⟩ hgood' hbs hbad'
    have hif : ((good' ++ bad :: rest).isEmpty = true) = False := by
      simp [hne]
    simp only [List.cons_append, innerLoop, if_pos hg.1, hqs, List.append_eq, hif, if_false]
    rw [this]
    have henq : pyEnqAll st.queues (g :: good') = pyEnqAll qs good' := by
      show pyEnqAll ((pyPut st.queues g.cf_id g.cmd).getD st.queues) good' = _
      rw [hqs]
      rfl
    rw [henq]
    simp

/-! ### The outer scheduler loop -/

theorem outerLoop_ok :
    ∀ (fuel s : ℕ) (entries : List Entry) (st : SchedState), entries ≠ [] →
    (∀ e ∈ entries, okId st.queues.length e) →
    (∀ e ∈ entries, e.step < s + fuel) → 0 < fuel →
    (outerLoop s fuel entries st).2 = .ok ∧
    (outerLoop s fuel entries st).1.queues = pyEnqAll st.queues entries := by
  intro fuel
  induction fuel with
  | zero => intro s entries st _ _ _ h; omega
  | succ f ih =>
    intro s entries st hne hok hstep _
    have hoktw : ∀ e ∈ entries.takeWhile (fun e => e.step ≤ s), okId st.queues.length e := by
      intro e he
      refine hok e ?_
      rw [← List.takeWhile_append_dropWhile (fun e => decide (e.step ≤ s)) entries]
      exact List.mem_append_left _ he
    have hinner := innerLoop_ok s entries st hne hoktw
    by_cases hpost : (entries.dropWhile (fun e => e.step ≤ s)).isEmpty = true
    · have htweq : entries.takeWhile (fun e => e.step ≤ s) = entries := by
        have hdw : entries.dropWhile (fun e => e.step ≤ s) = [] := List.isEmpty_iff.mp hpost
        have h2 := List.takeWhile_append_dropWhile (fun e => decide (e.step ≤ s)) entries
        rw [hdw, List.append_nil] at h2
        exact h2
      rw [htweq, if_pos hpost] at hinner
      constructor
      · show (outerLoop s (f + 1) entries st).2 = Outcome.ok
        simp [outerLoop, hinner]
      · show (outerLoop s (f + 1) entries st).1.queues = pyEnqAll st.queues entries
        simp [outerLoop, hinner]
    · rw [if_neg hpost] at hinner
      have hne' : entries.dropWhile (fun e => e.step ≤ s) ≠ [] := by
        intro hcontra
        rw [hcontra] at hpost
        exact hpost rfl
      have houter : outerLoop s (f + 1) entries st
          = outerLoop (s + 1) f (entries.dropWhile (fun e => e.step ≤ s))
              ⟨pyEnqAll st.queues (entries.takeWhile (fun e => e.step ≤ s)),
               st.trace ++ (entries.takeWhile (fun e => e.step ≤ s)).map
                 (fun e => Disp.mk s e)⟩ := by
        simp [outerLoop, hinner]
      have hmemdw : ∀ e ∈ entries.dropWhile (fun e => e.step ≤ s), e ∈ entries := by
        intro e he
        rw [← List.takeWhile_append_dropWhile (fun e => decide (e.step ≤ s)) entries]
        exact List.mem_append_right _ he
      have hok' : ∀ e ∈ entries.dropWhile (fun e => e.step ≤ s),
          okId (SchedState.mk
              (pyEnqAll st.queues (entries.takeWhile (fun e => e.step ≤ s)))
              (st.trace ++ (entries.takeWhile (fun e => e.step ≤ s)).map
                (fun e => Disp.mk s e))).queues.length e := by
        intro e he
        show okId (pyEnqAll st.queues (entries.takeWhile (fun e => e.step ≤ s))).length e
        rw [pyEnqAll_length]
        exact hok e (hmemdw e he)
      have hstep' : ∀ e ∈ entries.dropWhile (fun e => e.step ≤ s),
          e.step < (s + 1) + f := by
        intro e he
        have := hstep e (hmemdw e he)
        omega
      have h0f : 0 < f := by
        obtain ⟨hd, tl, hdtl⟩ := List.exists_cons_of_ne_nil hne'
        have hhd : decide (hd.step ≤ s) = false := dropWhile_head_not entries hd tl hdtl
        have hgt : ¬ hd.step ≤ s := by simpa using hhd
        have hlt := hstep hd (hmemdw hd (by rw [hdtl]; exact List.mem_cons_self hd tl))
        omega
      obtain ⟨h2ok, h2q⟩ := ih (s + 1) (entries.dropWhile (fun e => e.step ≤ s))
        ⟨pyEnqAll st.queues (entries.takeWhile (fun e => e.step ≤ s)),
         st.trace ++ (entries.takeWhile (fun e => e.step ≤ s)).map (fun e => Disp.mk s e)⟩
        hne' hok' hstep' h0f
      constructor
      · rw [houter]
        exact h2ok
      · rw [houter, h2q]
        show pyEnqAll (pyEnqAll st.queues (entries.takeWhile (fun e => e.step ≤ s))) _ = _
        rw [← pyEnqAll_append, List.takeWhile_append_dropWhile]

theorem outerLoop_crash :
    ∀ (fuel s : ℕ) (good : List Entry) (bad : Entry) (rest : List Entry) (st : SchedState),
    (∀ e ∈ good, okId st.queues.length e) →
    ¬ okId st.queues.length bad →
    (∀ e ∈ good, e.step < s + fuel) → bad.step < s + fuel → 0 < fuel →
    (outerLoop s fuel (good ++ bad :: rest) st).2 = .idxErr ∧
    (outerLoop s fuel (good ++ bad :: rest) st).1.queues = pyEnqAll st.queues good := by
  intro fuel
  induction fuel with
  | zero => intro s good bad rest st _ _ _ _ h; omega
  | succ f ih =>
    intro s good bad rest st hgood hbad hstepg hstepb _
    by_cases hall : (∀ e ∈ good, e.step ≤ s) ∧ bad.step ≤ s
    · have hinner := innerLoop_crash s good bad rest st
        (fun e he => ⟨hall.1 e he, hgood e he⟩) hall.2 hbad
      constructor
      · show (outerLoop s (f + 1) (good ++ bad :: rest) st).2 = Outcome.idxErr
        simp [outerLoop, hinner]
      · show (outerLoop s (f + 1) (good ++ bad :: rest) st).1.queues = pyEnqAll st.queues good
        simp [outerLoop, hinner]
    · have hentne : good ++ bad :: rest ≠ [] := by
        cases good <;> simp
      by_cases hg2 : good.dropWhile (fun e => e.step ≤ s) = []
      · -- every entry of `good` is due at step `s`, so the loop stops right before `bad`
        have hgall : ∀ e ∈ good, e.step ≤ s := by
          intro e he
          have htwg : good.takeWhile (fun e => e.step ≤ s) = good := by
            have h2 := List.takeWhile_append_dropWhile (fun e => decide (e.step ≤ s)) good
            rw [hg2, List.append_nil] at h2
            exact h2
          have hmem : e ∈ good.takeWhile (fun e => e.step ≤ s) := by
            rw [htwg]; exact he
          simpa using List.mem_takeWhile_imp hmem
        have hbs : ¬ bad.step ≤ s := fun hcontra => hall ⟨hgall, hcontra⟩
        have hsplit := takeWhile_append_of_all (p := fun e => decide (e.step ≤ s))
          good (bad :: rest) (fun a ha => by simpa using hgall a ha)
        have htw : (good ++ bad :: rest).takeWhile (fun e => e.step ≤ s) = good := by
          rw [hsplit.1, List.takeWhile_cons, if_neg (by simpa using hbs), List.append_nil]
        have hdw : (good ++ bad :: rest).dropWhile (fun e => e.step ≤ s) = bad :: rest := by
          rw [hsplit.2, List.dropWhile_cons, if_neg (by simpa using hbs)]
        have hoktw : ∀ e ∈ (good ++ bad :: rest).takeWhile (fun e => e.step ≤ s),
            okId st.queues.length e := by
          rw [htw]; exact hgood
        have hinner := innerLoop_ok s (good ++ bad :: rest) st hentne hoktw
        rw [htw, hdw, if_neg (by simp)] at hinner
        have houter : outerLoop s (f + 1) (good ++ bad :: rest) st
            = outerLoop (s + 1) f (bad :: rest)
                ⟨pyEnqAll st.queues good,
                 st.trace ++ good.map (fun e => Disp.mk s e)⟩ := by
          simp [outerLoop, hinner]
        have hlen2 : (pyEnqAll st.queues good).length = st.queues.length :=
          pyEnqAll_length good st.queues
        have h0f : 0 < f := by omega
        obtain ⟨h2e, h2q⟩ := ih (s + 1) [] bad rest
          ⟨pyEnqAll st.queues good, st.trace ++ good.map (fun e => Disp.mk s e)⟩
          (by intro e he; simp at he)
          (by show ¬ okId (pyEnqAll st.queues good).length bad; rw [hlen2]; exact hbad)
          (by intro e he; simp at he)
          (by omega) h0f
        constructor
        · rw [houter]; exact h2e
        · rw [houter]; exact h2q
      · -- the loop stops at the first not-yet-due entry inside `good`
        obtain ⟨gh, g2', hgh⟩ := List.exists_cons_of_ne_nil hg2
        have hsplit := takeWhile_append_of_stop (p := fun e => decide (e.step ≤ s))
          good (bad :: rest) hg2
        have hmemtw : ∀ e ∈ good.takeWhile (fun e => e.step ≤ s), e ∈ good := by
          intro e he
          rw [← List.takeWhile_append_dropWhile (fun e => decide (e.step ≤ s)) good]
          exact List.mem_append_left _ he
        have hmemdw : ∀ e ∈ good.dropWhile (fun e => e.step ≤ s), e ∈ good := by
          intro e he
          rw [← List.takeWhile_append_dropWhile (fun e => decide (e.step ≤ s)) good]
          exact List.mem_append_right _ he
        have hoktw : ∀ e ∈ (good ++ bad :: rest).takeWhile (fun e => e.step ≤ s),
            okId st.queues.length e := by
          rw [hsplit.1]
          intro e he
          exact hgood e (hmemtw e he)
        have hinner := innerLoop_ok s (good ++ bad :: rest) st hentne hoktw
        rw [hsplit.1, hsplit.2, if_neg (by simp [hgh])] at hinner
        have houter : outerLoop s (f + 1) (good ++ bad :: rest) st
            = outerLoop (s + 1) f (good.dropWhile (fun e => e.step ≤ s) ++ bad :: rest)
                ⟨pyEnqAll st.queues (good.takeWhile (fun e => e.step ≤ s)),
                 st.trace ++ (good.takeWhile (fun e => e.step ≤ s)).map
                   (fun e => Disp.mk s e)⟩ := by
          simp [outerLoop, hinner]
        have hlen2 : (pyEnqAll st.queues (good.takeWhile (fun e => e.step ≤ s))).length
            = st.queues.length := pyEnqAll_length _ st.queues
        have h0f : 0 < f := by
          have hghs : decide (gh.step ≤ s) = false := dropWhile_head_not good gh g2' hgh
          have hgt : ¬ gh.step ≤ s := by simpa using hghs
          have hlt := hstepg gh (hmemdw gh (by rw [hgh]; exact List.mem_cons_self gh g2'))
          omega
        obtain ⟨h2e, h2q⟩ := ih (s + 1) (good.dropWhile (fun e => e.step ≤ s)) bad rest
          ⟨pyEnqAll st.queues (good.takeWhile (fun e => e.step ≤ s)),
           st.trace ++ (good.takeWhile (fun e => e.step ≤ s)).map (fun e => Disp.mk s e)⟩
          (by intro e he
              show okId (pyEnqAll st.queues (good.takeWhile (fun e => e.step ≤ s))).length e
              rw [hlen2]
              exact hgood e (hmemdw e he))
          (by show ¬ okId (pyEnqAll st.queues
                (good.takeWhile (fun e => e.step ≤ s))).length bad
              rw [hlen2]
              exact hbad)
          (by intro e he
              have := hstepg e (hmemdw e he)
              omega)
          (by omega) h0f
        constructor
        · rw [houter]; exact h2e
        · rw [houter, h2q]
          show pyEnqAll (pyEnqAll st.queues (good.takeWhile (fun e => e.step ≤ s)))
              (good.dropWhile (fun e => e.step ≤ s)) = pyEnqAll st.queues good
          rw [← pyEnqAll_append, List.takeWhile_append_dropWhile]

theorem outerLoop_trace :
    ∀ (fuel s : ℕ) (entries : List Entry) (st : SchedState),
    ∃ (k : ℕ) (A : List Disp), (outerLoop s fuel entries st).1.trace = st.trace ++ A ∧
      A.map (fun d => d.entry) = entries.take k := by
  intro fuel
  induction fuel with
  | zero =>
    intro s entries st
    exact ⟨0, [], by simp [outerLoop], by simp⟩
  | succ f ih =>
    intro s entries st
    obtain ⟨k, htr, hpost⟩ := innerLoop_trace s entries st
    rcases hI : innerLoop s entries st with ⟨st1, o⟩
    rw [hI] at htr hpost
    cases o with
    | none =>
      refine ⟨k, (entries.take k).map (fun e => Disp.mk s e), ?_, ?_⟩
      · simp only [outerLoop, hI]
        exact htr
      · simp [List.map_map, Function.comp_def]
    | some bp =>
      obtain ⟨b, post⟩ := bp
      have hp : post = entries.drop k := hpost b post rfl
      cases b with
      | true =>
        refine ⟨k, (entries.take k).map (fun e => Disp.mk s e), ?_, ?_⟩
        · simp only [outerLoop, hI]
          exact htr
        · simp [List.map_map, Function.comp_def]
      | false =>
        obtain ⟨k2, A2, htr2, hA2⟩ := ih (s + 1) post st1
        refine ⟨k + k2, (entries.take k).map (fun e => Disp.mk s e) ++ A2, ?_, ?_⟩
        · simp only [outerLoop, hI]
          rw [htr2, htr, List.append_assoc]
        · rw [List.map_append, hA2, hp, List.take_add]
          congr 1
          simp [List.map_map, Function.comp_def]

/-! ### End-to-end facts about `control_thread` -/

theorem control_thread_trace_eq (tbl : List Entry) (nq fuel : ℕ) :
    (control_thread tbl nq fuel).1.trace
      = (outerLoop 0 fuel tbl ⟨List.replicate nq [], []⟩).1.trace := by
  unfold control_thread
  rcases h : outerLoop 0 fuel tbl ⟨List.replicate nq [], []⟩ with ⟨st, o⟩
  cases o <;> simp

theorem control_thread_ok (tbl : List Entry) (nq fuel : ℕ)
    (h1 : tbl ≠ []) (h2 : ∀ e ∈ tbl, 0 ≤ e.cf_id ∧ e.cf_id < (nq : ℤ))
    (h3 : ∀ e ∈ tbl, e.step < fuel) :
    (control_thread tbl nq fuel).2 = .ok ∧
    (control_thread tbl nq fuel).1.queues
      = (pyEnqAll (List.replicate nq []) tbl).map (fun q => q ++ [Command.quit]) := by
  have h0 : 0 < fuel := by
    rcases tbl with _ | ⟨e, tl⟩
    · exact absurd rfl h1
    · have := h3 e (List.mem_cons_self e tl)
      omega
  have hok : ∀ e ∈ tbl,
      okId (SchedState.mk (List.replicate nq ([] : List Command)) []).queues.length e := by
    intro e he
    have := h2 e he
    show okId (List.replicate nq ([] : List Command)).length e
    rw [List.length_replicate]
    exact ⟨by omega, this.2⟩
  obtain ⟨ho, hq⟩ := outerLoop_ok fuel 0 tbl ⟨List.replicate nq [], []⟩ h1 hok
    (by intro e he; have := h3 e he; omega) h0
  unfold control_thread
  rcases hout : outerLoop 0 fuel tbl ⟨List.replicate nq [], []⟩ with ⟨st, o⟩
  rw [hout] at ho hq
  have hoo : o = Outcome.ok := ho
  subst hoo
  have hqq : st.queues = pyEnqAll (List.replicate nq []) tbl := hq
  constructor
  · rfl
  · show st.queues.map (fun q => q ++ [Command.quit]) = _
    rw [hqq]

/-! ### Claim theorems: the scheduler -/

/-- C1 (counterexample): the claim quantifies over *every* choreography
table, but on the empty table the scheduler's first read of
`sequence[pointer]` raises IndexError before any `Quit` is distributed, so
agent 0's queue stays `[]` instead of ending with exactly one `Quit`. -/
theorem c1_empty_table_counterexample :
    (control_thread ([] : List Entry) 1 5).1.queues[0]? = some ([] : List Command) ∧
    (control_thread ([] : List Entry) 1 5).2 = Outcome.idxErr ∧
    ([] : List Command) ≠ [Command.quit] := by decide

/-- C1 (amended): for every NON-EMPTY choreography table all of whose
entries address a valid agent (`0 ≤ agentId < agent count`), and any fuel
bound exceeding every step in the table, each agent's queue receives
exactly the subsequence of table commands addressed to it, in table order
(hence with the same multiset), followed by exactly one `Quit`; an agent
never referenced in the table receives exactly one `Quit`. -/
theorem c1_per_agent_stream (tbl : List Entry) (nq fuel a : ℕ)
    (h1 : tbl ≠ []) (h2 : ∀ e ∈ tbl, 0 ≤ e.cf_id ∧ e.cf_id < (nq : ℤ))
    (h3 : ∀ e ∈ tbl, e.step < fuel) (ha : a < nq) :
    (control_thread tbl nq fuel).1.queues[a]?
      = some ((tbl.filter (fun e => e.cf_id = (a : ℤ))).map (fun e => e.cmd)
          ++ [Command.quit]) ∧
    (control_thread tbl nq fuel).2 = .ok := by
  obtain ⟨ho, hq⟩ := control_thread_ok tbl nq fuel h1 h2 h3
  refine ⟨?_, ho⟩
  rw [hq, List.getElem?_map]
  have hrep : (List.replicate nq ([] : List Command)).length = nq :=
    List.length_replicate nq []
  have hget := pyEnqAll_getElem? tbl (List.replicate nq []) a
    (by intro e he; rw [hrep]; exact h2 e he) (by rw [hrep]; exact ha)
  rw [hget]
  have hgd : (List.replicate nq ([] : List Command)).getD a [] = [] := by
    rw [List.getD_eq_getElem?_getD]
    simp [List.getElem?_replicate, ha]
  rw [hgd]
  simp

/-- C1 (witness): the spec's own end-to-end scenario, two agents with
takeoff at step 0 and landing at step 2: agent 0's stream is its two table
commands followed by one `Quit`. -/
theorem c1_per_agent_stream_witness :
    (([⟨0, 0, .takeoff 1 2⟩, ⟨0, 1, .takeoff 1 2⟩,
       ⟨2, 0, .land 2⟩, ⟨2, 1, .land 2⟩] : List Entry) ≠ []) ∧
    ((control_thread [⟨0, 0, .takeoff 1 2⟩, ⟨0, 1, .takeoff 1 2⟩,
        ⟨2, 0, .land 2⟩, ⟨2, 1, .land 2⟩] 2 3).1.queues[0]?
      = some ((([⟨0, 0, .takeoff 1 2⟩, ⟨0, 1, .takeoff 1 2⟩,
          ⟨2, 0, .land 2⟩, ⟨2, 1, .land 2⟩] : List Entry).filter
            (fun e => e.cf_id = (0 : ℤ))).map (fun e => e.cmd)
          ++ [Command.quit]) ∧
     (control_thread [⟨0, 0, .takeoff 1 2⟩, ⟨0, 1, .takeoff 1 2⟩,
        ⟨2, 0, .land 2⟩, ⟨2, 1, .land 2⟩] 2 3).2 = .ok) :=
  ⟨by decide,
   c1_per_agent_stream _ 2 3 0 (by decide) (by decide) (by decide) (by decide)⟩

/-- C2: for a table sorted by non-decreasing step, any table entry with a
strictly smaller step than the entry enqueued at trace position `j` was
itself enqueued at an earlier trace position: dispatch for step `N`
completes before any dispatch for a later step begins. -/
theorem c2_monotonic_batches (tbl : List Entry) (nq fuel : ℕ)
    (hs : List.Pairwise (fun e1 e2 => e1.step ≤ e2.step) tbl) :
    ∀ (j : ℕ) (hj : j < (control_thread tbl nq fuel).1.trace.length)
      (m : ℕ) (hm : m < tbl.length),
      (tbl.get ⟨m, hm⟩).step
          < (((control_thread tbl nq fuel).1.trace).get ⟨j, hj⟩).entry.step →
      ∃ hm2 : m < (control_thread tbl nq fuel).1.trace.length,
        m < j ∧ ((control_thread tbl nq fuel).1.trace.get ⟨m, hm2⟩).entry
          = tbl.get ⟨m, hm⟩ := by
  obtain ⟨k, A, hA, hAe⟩ := outerLoop_trace fuel 0 tbl ⟨List.replicate nq [], []⟩
  have hTmap : (control_thread tbl nq fuel).1.trace.map (fun d => d.entry)
      = tbl.take k := by
    rw [control_thread_trace_eq, hA]
    simpa using hAe
  have hTlen : (control_thread tbl nq fuel).1.trace.length = min k tbl.length := by
    have := congrArg List.length hTmap
    simpa using this
  have hpoint : ∀ (i : ℕ) (hi : i < (control_thread tbl nq fuel).1.trace.length)
      (hi2 : i < tbl.length),
      ((control_thread tbl nq fuel).1.trace.get ⟨i, hi⟩).entry = tbl.get ⟨i, hi2⟩ := by
    intro i hi hi2
    have hik : i < k := by omega
    have h1 : ((control_thread tbl nq fuel).1.trace.map (fun d => d.entry))[i]?
        = some (((control_thread tbl nq fuel).1.trace.get ⟨i, hi⟩).entry) := by
      rw [List.getElem?_map]
      simp [List.getElem?_eq_getElem hi]
    have h2 : (tbl.take k)[i]? = some (tbl.get ⟨i, hi2⟩) := by
      rw [List.getElem?_take]
      simp [hik, List.getElem?_eq_getElem hi2]
    rw [hTmap, h2] at h1
    exact (Option.some.injEq _ _ ▸ h1).symm
  intro j hj m hm hlt
  have hjt : j < tbl.length := by omega
  have hmj : m < j := by
    by_contra hc
    push_neg at hc
    rcases Nat.lt_or_ge j m with hjm | hjm
    · have hR := List.pairwise_iff_get.mp hs ⟨j, hjt⟩ ⟨m, hm⟩ hjm
      rw [hpoint j hj hjt] at hlt
      omega
    · have hje : j = m := by omega
      subst hje
      rw [hpoint j hj hjt] at hlt
      omega
  have hm2 : m < (control_thread tbl nq fuel).1.trace.length := by omega
  exact ⟨hm2, hmj, hpoint m hm2 hm⟩

/-- C2 (witness): a concrete sorted two-entry table at fuel 2. -/
theorem c2_monotonic_batches_witness :
    (List.Pairwise (fun e1 e2 => e1.step ≤ e2.step)
      ([⟨0, 0, .takeoff 1 2⟩, ⟨1, 0, .land 2⟩] : List Entry)) ∧
    (∀ (j : ℕ)
      (hj : j < (control_thread [⟨0, 0, .takeoff 1 2⟩, ⟨1, 0, .land 2⟩] 1 2).1.trace.length)
      (m : ℕ) (hm : m < ([⟨0, 0, .takeoff 1 2⟩, ⟨1, 0, .land 2⟩] : List Entry).length),
      (([⟨0, 0, .takeoff 1 2⟩, ⟨1, 0, .land 2⟩] : List Entry).get ⟨m, hm⟩).step
          < (((control_thread [⟨0, 0, .takeoff 1 2⟩, ⟨1, 0, .land 2⟩] 1 2).1.trace).get
              ⟨j, hj⟩).entry.step →
      ∃ hm2 : m < (control_thread [⟨0, 0, .takeoff 1 2⟩, ⟨1, 0, .land 2⟩] 1 2).1.trace.length,
        m < j ∧
          ((control_thread [⟨0, 0, .takeoff 1 2⟩, ⟨1, 0, .land 2⟩] 1 2).1.trace.get
              ⟨m, hm2⟩).entry
            = ([⟨0, 0, .takeoff 1 2⟩, ⟨1, 0, .land 2⟩] : List Entry).get ⟨m, hm⟩) :=
  ⟨by decide, c2_monotonic_batches _ 1 2 (by decide)⟩

/-- C5 (counterexample): the entry `(0, 5, Land 2)` with agentId 5 ≥ 2 is
NOT rejected at load time: the scheduler first dispatches the valid entry
`(0, 0, Takeoff 1 2)` (it is enqueued and traced) and only then dies of an
IndexError mid-run when it reaches the invalid entry; no `Quit` is ever
delivered. -/
theorem c5_invalid_agent_counterexample :
    control_thread [⟨0, 0, .takeoff 1 2⟩, ⟨0, 5, .land 2⟩] 2 1
      = (⟨[[.takeoff 1 2], []], [⟨0, ⟨0, 0, .takeoff 1 2⟩⟩]⟩, .idxErr) := by decide

/-- C5 (amended): a choreography entry whose agentId does not index a known
queue (`agentId ≥ count` or `agentId < -count`) is not detected at load or
startup time; the scheduler dispatches every entry before it and then fails
with an IndexError mid-run when it reaches the invalid entry, leaving the
queues holding exactly the previously dispatched commands and no `Quit`. -/
theorem c5_invalid_agent_fails_midrun (good : List Entry) (bad : Entry)
    (rest : List Entry) (nq fuel : ℕ)
    (hg : ∀ e ∈ good, okId nq e) (hb : ¬ okId nq bad)
    (hfg : ∀ e ∈ good, e.step < fuel) (hfb : bad.step < fuel) :
    (control_thread (good ++ bad :: rest) nq fuel).2 = .idxErr ∧
    (control_thread (good ++ bad :: rest) nq fuel).1.queues
      = pyEnqAll (List.replicate nq []) good := by
  have h0 : 0 < fuel := by omega
  have hgq : ∀ e ∈ good,
      okId (SchedState.mk (List.replicate nq ([] : List Command)) []).queues.length e := by
    intro e he
    show okId (List.replicate nq ([] : List Command)).length e
    rw [List.length_replicate]
    exact hg e he
  have hbq : ¬ okId (SchedState.mk (List.replicate nq ([] : List Command)) []).queues.length
      bad := by
    show ¬ okId (List.replicate nq ([] : List Command)).length bad
    rw [List.length_replicate]
    exact hb
  obtain ⟨he, hq⟩ := outerLoop_crash fuel 0 good bad rest ⟨List.replicate nq [], []⟩
    hgq hbq (by intro e hee; have := hfg e hee; omega) (by omega) h0
  unfold control_thread
  rcases hout : outerLoop 0 fuel (good ++ bad :: rest) ⟨List.replicate nq [], []⟩ with ⟨st, o⟩
  rw [hout] at he hq
  have hoo : o = Outcome.idxErr := he
  subst hoo
  exact ⟨rfl, hq⟩

/-- C5 (witness): one valid entry then one out-of-range entry, two agents. -/
theorem c5_invalid_agent_fails_midrun_witness :
    (∀ e ∈ ([⟨0, 0, .takeoff 1 2⟩] : List Entry), okId 2 e) ∧
    ((control_thread ([⟨0, 0, .takeoff 1 2⟩] ++ (⟨0, 5, .land 2⟩ : Entry) :: []) 2 1).2
        = .idxErr ∧
     (control_thread ([⟨0, 0, .takeoff 1 2⟩] ++ (⟨0, 5, .land 2⟩ : Entry) :: []) 2 1).1.queues
        = pyEnqAll (List.replicate 2 []) [⟨0, 0, .takeoff 1 2⟩]) :=
  ⟨by decide,
   c5_invalid_agent_fails_midrun [⟨0, 0, .takeoff 1 2⟩] ⟨0, 5, .land 2⟩ [] 2 1
     (by decide) (by decide) (by decide) (by decide)⟩

/-- C6: on the out-of-order table `[(5, 0, Takeoff), (3, 0, Land)]` the
later-placed, lower-numbered entry (step 3) is not dispatched at its own
step: both entries are dispatched while the step counter reads 5, and agent
0 receives the step-5 command before the step-3 command — delivery is
silently reordered relative to step order. -/
theorem c6_out_of_order_dispatch :
    (control_thread [⟨5, 0, .takeoff 1 2⟩, ⟨3, 0, .land 2⟩] 1 6).1.trace.map
        (fun d => (d.dstep, d.entry.step)) = [(5, 5), (5, 3)] ∧
    (control_thread [⟨5, 0, .takeoff 1 2⟩, ⟨3, 0, .land 2⟩] 1 6).1.queues[0]?
        = some [.takeoff 1 2, .land 2, .quit] ∧
    (control_thread [⟨5, 0, .takeoff 1 2⟩, ⟨3, 0, .land 2⟩] 1 6).2 = .ok := by decide

/-- C10: on the empty table the scheduler's first evaluation of the inner
loop condition reads `sequence[0]` and raises IndexError before anything is
enqueued: the run dies with every queue still empty and no agent ever
receives `Quit` — the end-of-table check only runs after a successful
dispatch, never before the first read. -/
theorem c10_empty_table_index_error (nq fuel : ℕ) (h : 0 < fuel) :
    control_thread [] nq fuel = (⟨List.replicate nq [], []⟩, .idxErr) := by
  obtain ⟨f, rfl⟩ : ∃ f, fuel = f + 1 := ⟨fuel - 1, by omega⟩
  rfl

/-- C10 (witness): three agents, fuel 1. -/
theorem c10_empty_table_index_error_witness :
    0 < 1 ∧ control_thread [] 3 1 = (⟨List.replicate 3 [], []⟩, .idxErr) :=
  ⟨by decide, c10_empty_table_index_error 3 1 (by decide)⟩

/-! ### Claim theorems: the agent worker -/

/-- C7: `Quit` makes the worker return immediately, reading no further
commands even if more are queued; `Takeoff(height, duration)` invokes the
takeoff primitive with exactly those parameters; `Land(duration)` invokes
the landing primitive targeting height 0 over the duration; and
`GoTo(x, y, z, duration)` invokes the absolute-position primitive at
`(x, y, z)` with yaw fixed at 0 and that duration — in each non-`Quit` case
the loop then continues with the rest of the stream unchanged. -/
theorem c7_worker_command_semantics (uri : String) (rest : List Command)
    (height tm x y z : ℚ) :
    crazyflie_control_loop uri (Command.quit :: rest) = ([], .stopped) ∧
    crazyflie_control_loop uri (Command.takeoff height tm :: rest)
      = (Effect.takeoff (height : ℝ) (tm : ℝ) :: (crazyflie_control_loop uri rest).1,
         (crazyflie_control_loop uri rest).2) ∧
    crazyflie_control_loop uri (Command.land tm :: rest)
      = (Effect.land 0 (tm : ℝ) :: (crazyflie_control_loop uri rest).1,
         (crazyflie_control_loop uri rest).2) ∧
    crazyflie_control_loop uri (Command.goto x y z tm :: rest)
      = (Effect.go_to (x : ℝ) (y : ℝ) (z : ℝ) 0 (tm : ℝ)
           :: (crazyflie_control_loop uri rest).1,
         (crazyflie_control_loop uri rest).2) := by
  refine ⟨rfl, ?_, ?_, ?_⟩ <;> simp [crazyflie_control_loop, execCommand]

/-- C8: a command object of none of the known variants makes the worker
emit exactly one warning naming the command and the agent's uri, invoke no
execution-interface primitive for it, and continue the loop so the rest of
the stream executes unchanged. -/
theorem c8_worker_unknown_command (uri : String) (tag : ℕ) (rest : List Command) :
    execCommand uri (Command.other tag) = .done [Effect.warn (Command.other tag) uri] ∧
    crazyflie_control_loop uri (Command.other tag :: rest)
      = (Effect.warn (Command.other tag) uri :: (crazyflie_control_loop uri rest).1,
         (crazyflie_control_loop uri rest).2) := by
  refine ⟨rfl, ?_⟩
  simp [crazyflie_control_loop, execCommand]

/-- C9: a `Helix` whose `No_setpoints` field is 0 makes the worker raise a
`ZeroDivisionError` while computing `setpoint_period =
circle_period/No_setpoints`, before any way-point is issued: the worker
thread dies there, executing nothing for the helix and reading no further
commands; neither the command model nor the worker guards against it. -/
theorem c9_helix_zero_setpoints_crash (uri : String)
    (d z zf theta0 circle_period tm : ℚ) (rest : List Command) :
    execCommand uri (Command.helix d z zf theta0 circle_period 0 tm)
      = .crash .zeroDiv ∧
    crazyflie_control_loop uri
        (Command.helix d z zf theta0 circle_period 0 tm :: rest)
      = ([], .crashed .zeroDiv) := by
  constructor
  · simp [execCommand]
  · simp [crazyflie_control_loop, execCommand]

/-! ### Claim theorems: ring color packing -/

theorem pyInt_channel {v i : ℚ} (hv0 : 0 ≤ v) (hv : v ≤ 255)
    (hi0 : 0 ≤ i) (hi : i ≤ 1) :
    0 ≤ pyInt (v * i) ∧ pyInt (v * i) ≤ 255 := by
  have h0 : 0 ≤ v * i := mul_nonneg hv0 hi0
  have h255 : v * i ≤ 255 := le_trans (mul_le_of_le_one_right hv0 hi) hv
  unfold pyInt
  rw [if_pos h0]
  constructor
  · exact Int.floor_nonneg.mpr h0
  · have := Int.floor_mono h255
    simpa using this

theorem int_pack_bounds {a b c : ℤ} (ha : 0 ≤ a ∧ a ≤ 255) (hb : 0 ≤ b ∧ b ≤ 255)
    (hc : 0 ≤ c ∧ c ≤ 255) :
    0 ≤ Int.lor (Int.lor (a <<< (16 : ℤ)) (b <<< (8 : ℤ))) c ∧
    Int.lor (Int.lor (a <<< (16 : ℤ)) (b <<< (8 : ℤ))) c < 2 ^ 24 := by
  obtain ⟨x, hx⟩ : ∃ x : ℕ, a = (x : ℤ) := ⟨a.toNat, (Int.toNat_of_nonneg ha.1).symm⟩
  obtain ⟨y, hy⟩ : ∃ y : ℕ, b = (y : ℤ) := ⟨b.toNat, (Int.toNat_of_nonneg hb.1).symm⟩
  obtain ⟨w, hw⟩ : ∃ w : ℕ, c = (w : ℤ) := ⟨c.toNat, (Int.toNat_of_nonneg hc.1).symm⟩
  subst hx hy hw
  have hx255 : x ≤ 255 := by exact_mod_cast ha.2
  have hy255 : y ≤ 255 := by exact_mod_cast hb.2
  have hw255 : w ≤ 255 := by exact_mod_cast hc.2
  have hcast : Int.lor (Int.lor ((x : ℤ) <<< (16 : ℤ)) ((y : ℤ) <<< (8 : ℤ))) (w : ℤ)
      = ((Nat.lor (Nat.lor (Nat.shiftLeft' false x 16) (Nat.shiftLeft' false y 8)) w : ℕ)
          : ℤ) := rfl
  rw [hcast, Nat.shiftLeft'_false, Nat.shiftLeft'_false]
  constructor
  · exact Int.natCast_nonneg _
  · have hxlt : x <<< 16 < 2 ^ 24 := by
      have h8 : x < 2 ^ 8 := by omega
      have := Nat.shiftLeft_lt (m := 16) h8
      simpa using this
    have hylt : y <<< 8 < 2 ^ 24 := by
      have h8 : y < 2 ^ 8 := by omega
      have h16 := Nat.shiftLeft_lt (m := 8) h8
      have : (2 : ℕ) ^ (8 + 8) < 2 ^ 24 := by norm_num
      omega
    have hwlt : w < 2 ^ 24 := by omega
    have h1 : Nat.lor (x <<< 16) (y <<< 8) < 2 ^ 24 := Nat.bitwise_lt hxlt hylt
    have h2 : Nat.lor (Nat.lor (x <<< 16) (y <<< 8)) w < 2 ^ 24 := Nat.bitwise_lt h1 hwlt
    exact_mod_cast h2

/-- C4: for channels in `[0, 255]` and intensity in `[0, 1]`, executing a
`Ring` command scales each channel by the intensity, truncates it to an
integer in `0-255`, packs the three channels as `(r << 16) | (g << 8) | b`
into a single value below `2^24`, and pushes the fade duration and the
packed color through the parameter-set channel only (no motion command);
concretely `(255, 0, 0, 1.0)` packs to `0xFF0000` and
`(255, 255, 255, 0.5)` scales to channels `127` packed as `0x7F7F7F`. -/
theorem c4_ring_packing (r g b intensity tm : ℚ)
    (hr0 : 0 ≤ r) (hr1 : r ≤ 255) (hg0 : 0 ≤ g) (hg1 : g ≤ 255)
    (hb0 : 0 ≤ b) (hb1 : b ≤ 255) (hi0 : 0 ≤ intensity) (hi1 : intensity ≤ 1) :
    (0 ≤ pyInt (r * intensity) ∧ pyInt (r * intensity) ≤ 255) ∧
    (0 ≤ pyInt (g * intensity) ∧ pyInt (g * intensity) ≤ 255) ∧
    (0 ≤ pyInt (b * intensity) ∧ pyInt (b * intensity) ≤ 255) ∧
    (0 ≤ ring_color r g b intensity ∧ ring_color r g b intensity < 2 ^ 24) ∧
    set_ring_color r g b intensity tm
      = [Effect.setParam "ring.fadeTime" tm,
         Effect.setParam "ring.fadeColor" ((ring_color r g b intensity : ℤ) : ℚ)] ∧
    (∀ e ∈ set_ring_color r g b intensity tm, isParamSet e = true) ∧
    (∀ uri, execCommand uri (Command.ring r g b intensity tm)
        = .done (set_ring_color r g b intensity tm)) ∧
    ring_color 255 0 0 1 = 0xFF0000 ∧
    pyInt (255 * (1 / 2 : ℚ)) = 127 ∧
    ring_color 255 255 255 (1 / 2) = 0x7F7F7F := by
  have hch255 : pyInt ((255 : ℚ) * 1) = 255 := by
    have h1 : ((255 : ℚ) * 1) = 255 := by norm_num
    rw [h1]
    unfold pyInt
    rw [if_pos (by norm_num)]
    norm_num
  have hch0 : pyInt ((0 : ℚ) * 1) = 0 := by
    have h1 : ((0 : ℚ) * 1) = 0 := by norm_num
    rw [h1]
    unfold pyInt
    rw [if_pos le_rfl]
    norm_num
  have hch127 : pyInt ((255 : ℚ) * (1 / 2)) = 127 := by
    have h1 : ((255 : ℚ) * (1 / 2)) = 255 / 2 := by norm_num
    rw [h1]
    unfold pyInt
    rw [if_pos (by norm_num)]
    norm_num
  refine ⟨pyInt_channel hr0 hr1 hi0 hi1, pyInt_channel hg0 hg1 hi0 hi1,
    pyInt_channel hb0 hb1 hi0 hi1, ?_, rfl, ?_, fun uri => rfl, ?_, hch127, ?_⟩
  · exact int_pack_bounds (pyInt_channel hr0 hr1 hi0 hi1)
      (pyInt_channel hg0 hg1 hi0 hi1) (pyInt_channel hb0 hb1 hi0 hi1)
  · intro e he
    simp only [set_ring_color, List.mem_cons, List.mem_singleton] at he
    rcases he with h | h
    · subst h; rfl
    · rcases h with h | h
      · subst h; rfl
      · simp at h
  · unfold ring_color
    rw [hch255, hch0]
    decide
  · unfold ring_color
    rw [hch127]
    decide

/-- C4 (witness): channels `(200, 10, 0)` at intensity `3/4`. -/
theorem c4_ring_packing_witness :
    (0 : ℚ) ≤ 200 ∧ (200 : ℚ) ≤ 255 ∧ (0 : ℚ) ≤ 10 ∧ (10 : ℚ) ≤ 255 ∧
    (0 : ℚ) ≤ 0 ∧ (0 : ℚ) ≤ 255 ∧ (0 : ℚ) ≤ 3 / 4 ∧ (3 / 4 : ℚ) ≤ 1 ∧
    (0 ≤ pyInt ((200 : ℚ) * (3 / 4)) ∧ pyInt ((200 : ℚ) * (3 / 4)) ≤ 255) :=
  ⟨by norm_num, by norm_num, by norm_num, by norm_num, by norm_num, by norm_num,
   by norm_num, by norm_num,
   (c4_ring_packing 200 10 0 (3 / 4) 1 (by norm_num) (by norm_num) (by norm_num)
     (by norm_num) (by norm_num) (by norm_num) (by norm_num) (by norm_num)).1⟩

/-! ### Claim theorems: helix expansion -/

theorem helix_waypoints_get (d z zf theta0 circle_period tm : ℚ) (n : ℤ)
    (c : ℕ) (hc1 : 1 ≤ c) (hcn : (c : ℤ) ≤ n) :
    (helix_waypoints d z zf theta0 circle_period n tm)[c]?
      = some ((d : ℝ) / 2 * Real.cos ((theta0 : ℝ) + 2 * Real.pi * c / (n : ℝ)),
              (d : ℝ) / 2 * Real.sin ((theta0 : ℝ) + 2 * Real.pi * c / (n : ℝ)),
              (z : ℝ) + (c : ℝ) / (n : ℝ) * ((zf : ℝ) - (z : ℝ)),
              (theta0 : ℝ) + 2 * Real.pi * c / (n : ℝ) - Real.pi / 2,
              (circle_period : ℝ) / (n : ℝ)) := by
  obtain ⟨c', rfl⟩ : ∃ c', c = c' + 1 := ⟨c - 1, by omega⟩
  have hcn' : c' < n.toNat := by omega
  show (helix_waypoints d z zf theta0 circle_period n tm)[c' + 1]? = _
  simp only [helix_waypoints, List.getElem?_cons_succ, List.getElem?_map]
  rw [List.getElem?_range hcn']
  have harg : 2 * Real.pi * ((c' + 1 : ℕ) : ℝ) / (n : ℝ) + (theta0 : ℝ)
      = (theta0 : ℝ) + 2 * Real.pi * ((c' + 1 : ℕ) : ℝ) / (n : ℝ) := by ring
  simp only [Option.map_some', helix_wp, harg]

theorem filter_isGoTo_flatMap (l : List ℕ) (f : ℕ → ℝ × ℝ × ℝ × ℝ × ℝ) (t : ℝ) :
    (l.flatMap (fun k =>
        [Effect.go_to (f k).1 (f k).2.1 (f k).2.2.1 (f k).2.2.2.1 (f k).2.2.2.2,
         Effect.sleep t])).filter isGoTo
      = l.map (fun k =>
          Effect.go_to (f k).1 (f k).2.1 (f k).2.2.1 (f k).2.2.2.1 (f k).2.2.2.2) := by
  induction l with
  | nil => rfl
  | cons a l ih =>
    simp only [List.flatMap_cons, List.filter_append, List.map_cons]
    rw [ih]
    rfl

/-- C3: for `steps = No_setpoints ≥ 1` the (real-arithmetic) helix
expansion issues exactly `steps + 1` absolute way-points: the first at
`(d/2·cos θ0, d/2·sin θ0, zStart)` with yaw `θ0 − π/2` and the command's
full duration; for `counter = 1, …, steps` the way-point at angle
`θ = θ0 + 2π·counter/steps` has position
`(d/2·cos θ, d/2·sin θ, zStart + counter/steps·(zEnd − zStart))`, yaw
`θ − π/2` and duration `period/steps`; the final way-point has `z = zEnd`
exactly and angle `θ0 + 2π`; and the `go_to` effects of the worker's helix
branch are exactly these way-points in order. -/
theorem c3_helix_expansion (d z zf theta0 circle_period tm : ℚ) (n : ℤ)
    (hn : 1 ≤ n) :
    (helix_waypoints d z zf theta0 circle_period n tm).length = n.toNat + 1 ∧
    (helix_waypoints d z zf theta0 circle_period n tm)[0]?
      = some ((d : ℝ) / 2 * Real.cos (theta0 : ℝ),
              (d : ℝ) / 2 * Real.sin (theta0 : ℝ),
              (z : ℝ), (theta0 : ℝ) - Real.pi / 2, (tm : ℝ)) ∧
    (∀ c : ℕ, 1 ≤ c → (c : ℤ) ≤ n →
      (helix_waypoints d z zf theta0 circle_period n tm)[c]?
        = some ((d : ℝ) / 2 * Real.cos ((theta0 : ℝ) + 2 * Real.pi * c / (n : ℝ)),
                (d : ℝ) / 2 * Real.sin ((theta0 : ℝ) + 2 * Real.pi * c / (n : ℝ)),
                (z : ℝ) + (c : ℝ) / (n : ℝ) * ((zf : ℝ) - (z : ℝ)),
                (theta0 : ℝ) + 2 * Real.pi * c / (n : ℝ) - Real.pi / 2,
                (circle_period : ℝ) / (n : ℝ))) ∧
    (helix_waypoints d z zf theta0 circle_period n tm)[n.toNat]?
      = some ((d : ℝ) / 2 * Real.cos ((theta0 : ℝ) + 2 * Real.pi),
              (d : ℝ) / 2 * Real.sin ((theta0 : ℝ) + 2 * Real.pi),
              (zf : ℝ), (theta0 : ℝ) + 2 * Real.pi - Real.pi / 2,
              (circle_period : ℝ) / (n : ℝ)) ∧
    (helix_effects d z zf theta0 circle_period n tm).filter isGoTo
      = (helix_waypoints d z zf theta0 circle_period n tm).map
          (fun w => Effect.go_to w.1 w.2.1 w.2.2.1 w.2.2.2.1 w.2.2.2.2) := by
  refine ⟨by simp [helix_waypoints], by simp [helix_waypoints],
    fun c hc1 hcn => helix_waypoints_get d z zf theta0 circle_period tm n c hc1 hcn,
    ?_, ?_⟩
  · have h0n : (0 : ℤ) ≤ n := by omega
    have hfin := helix_waypoints_get d z zf theta0 circle_period tm n n.toNat
      (by omega) (by omega)
    rw [hfin]
    have hnn : ((n.toNat : ℕ) : ℝ) = (n : ℝ) := by
      exact_mod_cast Int.toNat_of_nonneg h0n
    have hne : (n : ℝ) ≠ 0 := by
      have hpos : (0 : ℝ) < (n : ℝ) := by exact_mod_cast (by omega : (0 : ℤ) < n)
      exact ne_of_gt hpos
    have hfrac : 2 * Real.pi * ((n.toNat : ℕ) : ℝ) / (n : ℝ) = 2 * Real.pi := by
      rw [hnn]
      field_simp
    have hzz : (z : ℝ) + ((n.toNat : ℕ) : ℝ) / (n : ℝ) * ((zf : ℝ) - (z : ℝ))
        = (zf : ℝ) := by
      rw [hnn]
      field_simp
    rw [hfrac, hzz]
  · simp only [helix_effects, helix_waypoints]
    rw [List.filter_cons_of_pos rfl, List.filter_cons_of_neg (by simp [isGoTo])]
    rw [filter_isGoTo_flatMap (List.range n.toNat)
      (fun k => helix_wp d z zf theta0 circle_period n (k + 1))
      ((circle_period : ℝ) / (n : ℝ))]
    simp [List.map_map, Function.comp_def]

/-- C3 (witness): a helix with 2 setpoints expands to 3 way-points. -/
theorem c3_helix_expansion_witness :
    (1 : ℤ) ≤ 2 ∧ (helix_waypoints 3 0 1 0 10 2 2).length = (2 : ℤ).toNat + 1 :=
  ⟨by decide, (c3_helix_expansion 3 0 1 0 10 2 2 (by decide)).1⟩
